import Mathlib

set_option maxHeartbeats 1000000
set_option linter.unusedSectionVars false
set_option linter.unusedVariables false

/-!
A verification development for the `SimplexBuilder.py` construction
(class `GroupComplex`).  The definitions below are a shallow embedding of
the source: the conjugacy-class partition of noncentral elements
(`ConClasses`), the polygonal-sheet recurrence and sheet builder
(`sheetStep`, `sheet_candidate`, `Sheetbuilder`), the sheet-adjacency
test (`SheetAdjacency`), the adjacency-matrix phase of
`ComponentBuilder` (`ComponentMatrix`), the component edge count
(`edgeCount`) and the genus formula (`genus`).  The ambient group is an
arbitrary group `G` with decidable equality; concrete instances use
`DihedralGroup 3` and `Multiplicative ℤ`.
-/

namespace SimplexBuilder

variable {G : Type*} [Group G] [DecidableEq G]

/-- One step of the sheet recurrence of `Sheetbuilder`
(`SimplexBuilder.py` line 72): the entry following `x` on a sheet
anchored at `e` is `x⁻¹ * e`. -/
def sheetStep (e x : G) : G := x⁻¹ * e

/-- Fuel-bounded unfolding of the `while` loop of `Sheetbuilder`
(lines 71-72): starting from the entry `x` (the current last element of
the candidate), keep appending `sheetStep` values until the start
element `g` reappears.  The loop of the source is unbounded; the
development shows the fuel `2 * Fintype.card G` used by
`sheet_candidate` is never exhausted, so this equals the source loop. -/
def sheetAux (e g : G) : ℕ → G → List G
  | 0, x => [x]
  | n + 1, x => if x = g then [x] else x :: sheetAux e g n (sheetStep e x)

/-- The closed sheet candidate `[elem1, elem1⁻¹ * elem0, ...]` built by
`Sheetbuilder` (lines 70-72) for anchor `e` and starting element `g`. -/
def sheet_candidate [Fintype G] (e g : G) : List G :=
  g :: sheetAux e g (2 * Fintype.card G) (sheetStep e g)

/-- `sheet[sheet.index(x) + 1]` (line 58): the entry after the first
occurrence of `x`.  An out-of-range access (which never happens for the
arguments the source supplies) is rendered as the default `1`. -/
def nextAfter (s : List G) (x : G) : G := s.getD (s.indexOf x + 1) 1

/-- `SheetAdjacency` (lines 55-60): two sheets are adjacent iff some
consecutive pair of one equals a consecutive pair of the other, read in
either direction.  Both sheets are scanned without their closing entry. -/
def SheetAdjacency (s0 s1 : List G) : Bool :=
  s0.dropLast.any fun a => s1.dropLast.any fun b =>
    decide ([a, nextAfter s0 a] = [nextAfter s1 b, b]) ||
    decide ([a, nextAfter s0 a] = [b, nextAfter s1 b])

/-- The body of the `elem1` loop of `Sheetbuilder` (lines 68-78): skip a
commuting `g`; discard a closed candidate whose unordered element set
coincides with that of an accepted sheet; otherwise append it. -/
def sheetAccept [Fintype G] (e : G) (acc : List (List G)) (g : G) : List (List G) :=
  if e * g ≠ g * e then
    if acc.any fun s => s.toFinset = (sheet_candidate e g).toFinset then acc
    else acc ++ [sheet_candidate e g]
  else acc

/-- The sheets anchored at a class element `e`: the inner dictionary
`dic[elem0]` of `Sheetbuilder`, listed in order of acceptance. -/
def sheetsFor [Fintype G] (oppCen : List G) (e : G) : List (List G) :=
  oppCen.foldl (sheetAccept e) []

/-- `Sheetbuilder` (lines 63-79): for each element of a conjugacy class,
the list of accepted sheets anchored at it. -/
def Sheetbuilder [Fintype G] (oppCen cls : List G) : List (G × List (List G)) :=
  cls.map fun e => (e, sheetsFor oppCen e)

/-- One candidate step of `ConClasses` (lines 47-51): find the first
listed noncentral `g` whose conjugate `g⁻¹ * c * g` is a representative
and append `c` to that representative's class; when no such `g` exists
leave the classes unchanged (the silent-drop behaviour of the source). -/
def conStep (reps oppCen : List G) (dic : G → List G) (c : G) : G → List G :=
  match oppCen.find? fun g => decide (g⁻¹ * c * g ∈ reps) with
  | none => dic
  | some g => Function.update dic (g⁻¹ * c * g) (dic (g⁻¹ * c * g) ++ [c])

/-- `ConClasses` (lines 43-52): each class starts as `[rep]` and every
noncentral element outside the representative list is assigned by
`conStep`. -/
def ConClasses (reps oppCen : List G) : G → List G :=
  (oppCen.filter fun c => decide (c ∉ reps)).foldl (conStep reps oppCen)
    fun x => if x ∈ reps then [x] else []

/-- The flattened sheet catalog of `SheetIterator` (lines 82-86, consumed
as `self.sheets` on line 28): for each representative, for each element
of its conjugacy class, the accepted sheets anchored at that element,
each paired with its anchor. -/
def SheetCatalog [Fintype G] (reps oppCen : List G) : List (G × List G) :=
  reps.flatMap fun rep => (ConClasses reps oppCen rep).flatMap fun e =>
    (sheetsFor oppCen e).map fun s => (e, s)

/-- `mat[i,j] = 1; mat[j,i] = 1` (lines 111-112). -/
def setSym (m : ℕ → ℕ → Bool) (i j : ℕ) : ℕ → ℕ → Bool :=
  fun a b => if (a = i ∧ b = j) ∨ (a = j ∧ b = i) then true else m a b

/-- The body of the `for j in range(i, size)` loop (lines 109-113),
threading the matrix and the `adjacentSheetsFound` counter. -/
def adjStep (sheets : List (List G)) (i : ℕ) (st : (ℕ → ℕ → Bool) × ℕ) (j : ℕ) :
    (ℕ → ℕ → Bool) × ℕ :=
  if SheetAdjacency (sheets.getD i []) (sheets.getD j []) then
    (setSym st.1 i j, st.2 + 1)
  else st

/-- One full scan `for j in range(i, size)` (line 109). -/
def adjPass (sheets : List (List G)) (i : ℕ) (st : (ℕ → ℕ → Bool) × ℕ) :
    (ℕ → ℕ → Bool) × ℕ :=
  (List.range' i (sheets.length - i)).foldl (adjStep sheets i) st

/-- Fuel-bounded unfolding of the loop
`while adjacentSheetsFound < len(self.sheets[i][1])+1` (line 108). -/
def adjWhile (sheets : List (List G)) (target i : ℕ) :
    ℕ → (ℕ → ℕ → Bool) × ℕ → (ℕ → ℕ → Bool) × ℕ
  | 0, st => st
  | fuel + 1, st =>
    if st.2 < target then adjWhile sheets target i fuel (adjPass sheets i st) else st

/-- `sum(mat[i])` (line 107): the number of set entries of row `i`. -/
def rowSum (m : ℕ → ℕ → Bool) (size i : ℕ) : ℕ :=
  (List.range size).countP fun j => m i j

/-- One iteration of the outer `for i in range(size)` loop (lines
106-113). -/
def adjOuter (sheets : List (List G)) (fuel : ℕ) (mat : ℕ → ℕ → Bool) (i : ℕ) :
    ℕ → ℕ → Bool :=
  (adjWhile sheets ((sheets.getD i []).length + 1) i fuel
    (mat, rowSum mat sheets.length i)).1

/-- The sheet-adjacency matrix built by `ComponentBuilder` (lines
102-113), with the unbounded `while` loop rendered with fuel. -/
def ComponentMatrix (sheets : List (List G)) (fuel : ℕ) : ℕ → ℕ → Bool :=
  (List.range sheets.length).foldl (adjOuter sheets fuel) fun _ _ => false

/-- The match test of the edge count (line 153). -/
def edgeMatch (s0 s1 : List G) (s t : ℕ) : Bool :=
  decide ([s0.getD s 1, s0.getD (s + 1) 1] = [s1.getD t 1, s1.getD (t + 1) 1]) ||
  decide ([s0.getD s 1, s0.getD (s + 1) 1] = [s1.getD (t + 1) 1, s1.getD t 1])

/-- The two inner position loops of the edge count (lines 151-154). -/
def countMatches (s0 s1 : List G) (p : ℕ) : ℕ :=
  ((List.range p).map fun s =>
    ((List.range p).map fun t => if edgeMatch s0 s1 s t then 1 else 0).sum).sum

/-- The edge count of `ComponentBuilder` (lines 144-155), with the
source loops `for i in range(size-1)`, `for j in range(i+1, size)`. -/
def edgeCount (sheets : List (List G)) (p : ℕ) : ℕ :=
  ((List.range (sheets.length - 1)).map fun i =>
    ((List.range' (i + 1) (sheets.length - (i + 1))).map fun j =>
      countMatches (sheets.getD i []) (sheets.getD j []) p).sum).sum

/-- Modelled from the spec: "for every unordered pair of distinct member
sheets, and every pair of positions `(s, t)` in their boundaries, count
a match if `(sheet0[s], sheet0[s+1])` equals `(sheet1[t], sheet1[t+1])`
or its reverse; sum all matches across all sheet pairs as the total
edge count". -/
def edgeCountSpec (sheets : List (List G)) (p : ℕ) : ℕ :=
  ∑ i ∈ Finset.range sheets.length, ∑ j ∈ Finset.range sheets.length,
    if i < j then
      ∑ s ∈ Finset.range p, ∑ t ∈ Finset.range p,
        if edgeMatch (sheets.getD i []) (sheets.getD j []) s t then 1 else 0
    else 0

/-- The Euler characteristic and genus of a component (lines 156-157):
`genus = (χ - 2)/(-2)` with `χ = V - E + F`, computed in exact rational
arithmetic and stored without any integrality or sign check. -/
def genus (V E F : ℤ) : ℚ :=
  (((V : ℚ) - E + F) - 2) / (-2)

/-- A list that arises as a closed sheet candidate of the construction,
for an anchor and a starting element that do not commute. -/
def genuineSheet [Fintype G] (s : List G) : Prop :=
  ∃ e g : G, e * g ≠ g * e ∧ s = sheet_candidate e g

/-- Two genuine sheets recorded as adjacent: one gluing step inside a
component of the adjacency graph. -/
def sheetRel [Fintype G] (s t : List G) : Prop :=
  genuineSheet s ∧ genuineSheet t ∧ SheetAdjacency s t = true

/-- The noncentral elements of the dihedral group of order 6. -/
def d3opp : List (DihedralGroup 3) := [.r 1, .r 2, .sr 0, .sr 1, .sr 2]

/-- Conjugacy-class representatives for the noncentral elements of the
dihedral group of order 6: one rotation class and one reflection class. -/
def d3reps : List (DihedralGroup 3) := [.r 1, .sr 0]

/-- A representative list violating the adapter contract: the class of
the reflections has no representative. -/
def d3repsBad : List (DihedralGroup 3) := [.r 1]

/-- The anchor element used by the dihedral witnesses. -/
def d3anchor : DihedralGroup 3 := .sr 0

/-- C9: the genus of a component is computed as `(2 - χ)/2` in exact
rational arithmetic, but the code stores the result without any check:
at `V = E = F = 1` (Euler characteristic `1`) the stored genus is the
non-integer `1/2` (its denominator is `2`), and at `V = 4, E = F = 0`
it is the negative value `-1`; no anomaly is surfaced. -/
theorem genus_formula_unchecked :
    (∀ V E F : ℤ, genus V E F = (2 - ((V : ℚ) - E + F)) / 2)
    ∧ genus 1 1 1 = 1 / 2 ∧ (genus 1 1 1).den = 2
    ∧ genus 4 0 0 = -1 ∧ genus 4 0 0 < 0 := by
  refine ⟨fun V E F => ?_, by norm_num [genus], by norm_num [genus], by norm_num [genus],
    by norm_num [genus]⟩
  unfold genus
  ring

/-- C8: on an input whose representative list misses the reflection
class, `ConClasses` silently drops the unmatched noncentral element
`sr 0`: although `sr 0` is a listed noncentral element, it ends up in no
class at all, and no failure is signalled (the embedding, like the
source, is a total function with no error outcome). -/
theorem conClasses_silent_drop :
    DihedralGroup.sr 0 ∈ d3opp ∧
    ((d3repsBad.map (ConClasses d3repsBad d3opp)).flatten).count (DihedralGroup.sr 0) = 0 := by
  decide

/-- The accumulator invariant behind sheet deduplication: folding
`sheetAccept` preserves pairwise distinctness of element sets. -/
theorem foldl_sheetAccept_pairwise [Fintype G] (e : G) :
    ∀ (gs : List G) (acc : List (List G)),
      acc.Pairwise (fun s t => s.toFinset ≠ t.toFinset) →
      (gs.foldl (sheetAccept e) acc).Pairwise (fun s t => s.toFinset ≠ t.toFinset) := by
  intro gs
  induction gs with
  | nil => exact fun acc h => h
  | cons g gs ih =>
    intro acc h
    rw [List.foldl_cons]
    refine ih _ ?_
    unfold sheetAccept
    split
    · split
      · exact h
      · rename_i hany
        rw [List.any_eq_true] at hany
        push_neg at hany
        refine List.pairwise_append.mpr ⟨h, List.pairwise_singleton _ _, ?_⟩
        intro s hs t ht
        rw [List.mem_singleton] at ht
        subst ht
        intro hEq
        exact hany s hs (decide_eq_true hEq)
    · exact h

/-- C7: sheet deduplication is set-based.  For a single anchor,
`Sheetbuilder` never retains two sheets with equal unordered element
sets, and a newly closed candidate whose element set coincides with
that of an already-accepted sheet leaves the accepted list unchanged. -/
theorem sheet_dedup [Fintype G] :
    (∀ (oppCen : List G) (e : G),
      (sheetsFor oppCen e).Pairwise fun s t => s.toFinset ≠ t.toFinset)
    ∧ ∀ (e : G) (acc : List (List G)) (g : G),
      (acc.any fun s => s.toFinset = (sheet_candidate e g).toFinset) = true →
      sheetAccept e acc g = acc := by
  constructor
  · intro oppCen e
    exact foldl_sheetAccept_pairwise e oppCen [] (List.Pairwise.nil)
  · intro e acc g hany
    unfold sheetAccept
    split
    · simp [hany]
    · rfl

/-- C7 witness: a candidate whose element set equals that of the single
accepted sheet is discarded. -/
theorem sheet_dedup_witness :
    sheetAccept d3anchor [sheet_candidate d3anchor (DihedralGroup.r 1)] (DihedralGroup.r 2)
      = [sheet_candidate d3anchor (DihedralGroup.r 1)] :=
  sheet_dedup.2 d3anchor [sheet_candidate d3anchor (DihedralGroup.r 1)] (DihedralGroup.r 2)
    (by decide)

/-- Any matrix property preserved by `setSym` is preserved by the whole
inner `for j` scan. -/
theorem foldl_adjStep_pres (P : (ℕ → ℕ → Bool) → Prop)
    (hP : ∀ m i j, P m → P (setSym m i j)) (sheets : List (List G)) (i : ℕ) :
    ∀ (js : List ℕ) (st : (ℕ → ℕ → Bool) × ℕ), P st.1 →
      P ((js.foldl (adjStep sheets i) st).1) := by
  intro js
  induction js with
  | nil => exact fun st h => h
  | cons j js ih =>
    intro st h
    rw [List.foldl_cons]
    apply ih
    unfold adjStep
    split
    · exact hP _ _ _ h
    · exact h

/-- Any matrix property preserved by `setSym` is preserved by the fuelled
`while` loop. -/
theorem adjWhile_pres (P : (ℕ → ℕ → Bool) → Prop)
    (hP : ∀ m i j, P m → P (setSym m i j)) (sheets : List (List G)) (target i : ℕ) :
    ∀ (fuel : ℕ) (st : (ℕ → ℕ → Bool) × ℕ), P st.1 →
      P ((adjWhile sheets target i fuel st).1) := by
  intro fuel
  induction fuel with
  | zero => exact fun st h => h
  | succ fuel ih =>
    intro st h
    rw [adjWhile]
    split
    · exact ih _ (foldl_adjStep_pres P hP sheets i _ st h)
    · exact h

/-- Any matrix property preserved by `setSym` is preserved by the outer
`for i` loop. -/
theorem foldl_adjOuter_pres (P : (ℕ → ℕ → Bool) → Prop)
    (hP : ∀ m i j, P m → P (setSym m i j)) (sheets : List (List G)) (fuel : ℕ) :
    ∀ (is : List ℕ) (mat : ℕ → ℕ → Bool), P mat →
      P (is.foldl (adjOuter sheets fuel) mat) := by
  intro is
  induction is with
  | nil => exact fun mat h => h
  | cons i is ih =>
    intro mat h
    rw [List.foldl_cons]
    exact ih _ (adjWhile_pres P hP sheets _ i fuel _ h)

/-- C4: the adjacency relation recorded by `ComponentBuilder` over the
sheet catalog is symmetric: the built matrix satisfies
`mat[i][j] = mat[j][i]` for all indices, for every catalog and every
amount of fuel for the `while` loop, so sheet `i` is recorded adjacent
to sheet `j` iff sheet `j` is recorded adjacent to sheet `i`. -/
theorem componentMatrix_symm (sheets : List (List G)) (fuel a b : ℕ) :
    ComponentMatrix sheets fuel a b = ComponentMatrix sheets fuel b a := by
  have H := foldl_adjOuter_pres (fun m => ∀ x y, m x y = m y x)
    (fun m i j hm x y => by
      show setSym m i j x y = setSym m i j y x
      unfold setSym
      by_cases hxy : (x = i ∧ y = j) ∨ (x = j ∧ y = i)
      · have hyx : (y = i ∧ x = j) ∨ (y = j ∧ x = i) := by tauto
        rw [if_pos hxy, if_pos hyx]
      · have hyx : ¬((y = i ∧ x = j) ∨ (y = j ∧ x = i)) := by tauto
        rw [if_neg hxy, if_neg hyx]
        exact hm x y)
    sheets fuel (List.range sheets.length) (fun _ _ => false) (fun _ _ => rfl)
  exact H a b

/-- Self-adjacency of the `SheetAdjacency` test: any boundary list with
at least two entries shares an edge with itself. -/
theorem sheetAdjacency_self (s : List G) (hs : 2 ≤ s.length) :
    SheetAdjacency s s = true := by
  obtain ⟨a, ha⟩ : ∃ a, a ∈ s.dropLast := by
    apply List.exists_mem_of_ne_nil
    intro hnil
    have := congrArg List.length hnil
    rw [List.length_dropLast] at this
    simp at this
    omega
  unfold SheetAdjacency
  rw [List.any_eq_true]
  refine ⟨a, ha, ?_⟩
  rw [List.any_eq_true]
  exact ⟨a, ha, by simp⟩

/-- If the `while` body of the matrix phase runs at least once for outer
index `i` (the recorded-neighbour count is below the target), the scan
starting at `j = i` marks the diagonal entry `(i, i)`. -/
theorem adjOuter_diag (sheets : List (List G)) (fuel : ℕ) (mat : ℕ → ℕ → Bool) (i : ℕ)
    (hi : i < sheets.length) (hlen : 2 ≤ (sheets.getD i []).length) (hfuel : 1 ≤ fuel)
    (hrow : rowSum mat sheets.length i < (sheets.getD i []).length + 1) :
    adjOuter sheets fuel mat i i i = true := by
  obtain ⟨f, rfl⟩ : ∃ f, fuel = f + 1 := ⟨fuel - 1, by omega⟩
  unfold adjOuter
  rw [adjWhile]
  rw [if_pos hrow]
  apply adjWhile_pres (fun m => m i i = true)
    (fun m a b hm => by
      show setSym m a b i i = true
      unfold setSym
      split
      · rfl
      · exact hm)
  unfold adjPass
  obtain ⟨d, hd⟩ : ∃ d, sheets.length - i = d + 1 := ⟨sheets.length - i - 1, by omega⟩
  rw [hd, List.range'_succ, List.foldl_cons]
  apply foldl_adjStep_pres (fun m => m i i = true)
    (fun m a b hm => by
      show setSym m a b i i = true
      unfold setSym
      split
      · rfl
      · exact hm)
  unfold adjStep
  rw [if_pos (sheetAdjacency_self _ hlen)]
  unfold setSym
  simp

/-- A set diagonal entry survives the remaining outer iterations. -/
theorem foldl_adjOuter_keeps (sheets : List (List G)) (fuel : ℕ) (is : List ℕ)
    (mat : ℕ → ℕ → Bool) (a b : ℕ) (h : mat a b = true) :
    (is.foldl (adjOuter sheets fuel) mat) a b = true :=
  foldl_adjOuter_pres (fun m => m a b = true)
    (fun m i j hm => by
      show setSym m i j a b = true
      unfold setSym
      split
      · rfl
      · exact hm)
    sheets fuel is mat h

/-- Sums of mapped `List.range` agree with `Finset.range` sums. -/
theorem list_range_map_sum (f : ℕ → ℕ) (n : ℕ) :
    ((List.range n).map f).sum = ∑ i ∈ Finset.range n, f i := by
  induction n with
  | zero => simp
  | succ n ih =>
    rw [List.range_succ, List.map_append, List.sum_append, Finset.sum_range_succ, ih]
    simp

/-- Sums of mapped `List.range'` agree with `Finset.Ico` sums. -/
theorem list_range'_map_sum (f : ℕ → ℕ) :
    ∀ (len a : ℕ), ((List.range' a len).map f).sum = ∑ i ∈ Finset.Ico a (a + len), f i := by
  intro len
  induction len with
  | zero => simp
  | succ n ih =>
    intro a
    have hEq : a + 1 + n = a + (n + 1) := by omega
    rw [List.range'_succ, List.map_cons, List.sum_cons, ih (a + 1), hEq,
      Finset.sum_eq_sum_Ico_succ_bot (by omega : a < a + (n + 1))]

/-- The inner position loops of the edge count as a double `Finset` sum. -/
theorem countMatches_eq (s0 s1 : List G) (p : ℕ) :
    countMatches s0 s1 p
      = ∑ s ∈ Finset.range p, ∑ t ∈ Finset.range p,
          if edgeMatch s0 s1 s t then 1 else 0 := by
  unfold countMatches
  rw [list_range_map_sum]
  apply Finset.sum_congr rfl
  intro s _
  rw [list_range_map_sum]

/-- C5: the edge count computed by `ComponentBuilder` equals the
spec formula: the sum, over all unordered pairs of distinct member
sheets and all position pairs `(s, t)` below `polygon`, of matches where
`(sheet0[s], sheet0[s+1])` equals `(sheet1[t], sheet1[t+1])` or its
reverse, with no deduplication of edges shared by several sheets. -/
theorem edgeCount_eq_spec (sheets : List (List G)) (p : ℕ) :
    edgeCount sheets p = edgeCountSpec sheets p := by
  have hLHS : ∀ i, ((List.range' (i + 1) (sheets.length - (i + 1))).map fun j =>
      countMatches (sheets.getD i []) (sheets.getD j []) p).sum
      = ∑ j ∈ Finset.Ico (i + 1) sheets.length,
          ∑ s ∈ Finset.range p, ∑ t ∈ Finset.range p,
            if edgeMatch (sheets.getD i []) (sheets.getD j []) s t then 1 else 0 := by
    intro i
    rw [list_range'_map_sum]
    rcases le_or_lt (i + 1) sheets.length with hle | hlt
    · rw [show i + 1 + (sheets.length - (i + 1)) = sheets.length from by omega]
      exact Finset.sum_congr rfl fun j _ => countMatches_eq _ _ _
    · have h2 : Finset.Ico (i + 1) sheets.length = ∅ := Finset.Ico_eq_empty (by omega)
      rw [show sheets.length - (i + 1) = 0 from by omega, h2]
      simp
  have hRHS : ∀ i, (∑ j ∈ Finset.range sheets.length,
      if i < j then (∑ s ∈ Finset.range p, ∑ t ∈ Finset.range p,
        if edgeMatch (sheets.getD i []) (sheets.getD j []) s t then 1 else 0) else 0)
      = ∑ j ∈ Finset.Ico (i + 1) sheets.length,
          ∑ s ∈ Finset.range p, ∑ t ∈ Finset.range p,
            if edgeMatch (sheets.getD i []) (sheets.getD j []) s t then 1 else 0 := by
    intro i
    rw [← Finset.sum_filter]
    congr 1
    ext k
    simp only [Finset.mem_filter, Finset.mem_Ico, Finset.mem_range]
    omega
  unfold edgeCount edgeCountSpec
  rw [list_range_map_sum, Finset.sum_congr rfl fun i _ => hLHS i,
    Finset.sum_congr rfl fun i _ => hRHS i]
  rcases Nat.eq_zero_or_pos sheets.length with h0 | hpos
  · rw [h0]
  · obtain ⟨n, hn⟩ : ∃ n, sheets.length = n + 1 := ⟨sheets.length - 1, by omega⟩
    have hBn : ∀ (X : ℕ → ℕ), (∑ j ∈ Finset.Ico (n + 1) (n + 1), X j) = 0 := fun X => by simp
    rw [hn]
    rw [show n + 1 - 1 = n from by omega]
    rw [Finset.sum_range_succ]
    rw [hBn]
    exact (Nat.add_zero _).symm

/-- The sheet recurrence step is injective. -/
theorem sheetStep_injective (e : G) : Function.Injective (sheetStep e) := by
  intro x y h
  exact inv_injective (mul_right_cancel h)

/-- Two steps of the recurrence conjugate by the anchor. -/
theorem sheetStep_sq (e x : G) : (sheetStep e)^[2] x = e⁻¹ * x * e := by
  show sheetStep e (sheetStep e x) = e⁻¹ * x * e
  unfold sheetStep
  group

/-- Evenly many steps of the recurrence conjugate by a power of the
anchor. -/
theorem sheetStep_iter_even (e : G) (m : ℕ) :
    ∀ x : G, (sheetStep e)^[2 * m] x = (e ^ m)⁻¹ * x * e ^ m := by
  induction m with
  | zero => intro x; simp
  | succ m ih =>
    intro x
    rw [show 2 * (m + 1) = 2 * m + 2 from by ring, Function.iterate_add_apply,
      sheetStep_sq, ih (e⁻¹ * x * e), pow_succ]
    group

/-- After `2 * |G|` steps the recurrence returns to its start. -/
theorem sheet_isPeriodic [Fintype G] (e g : G) :
    Function.IsPeriodicPt (sheetStep e) (2 * Fintype.card G) g := by
  show (sheetStep e)^[2 * Fintype.card G] g = g
  rw [sheetStep_iter_even, pow_card_eq_one]
  simp

/-- Every group element is a periodic point of the sheet recurrence. -/
theorem sheet_periodic [Fintype G] (e g : G) : g ∈ Function.periodicPts (sheetStep e) := by
  have hpos : 0 < Fintype.card G := Fintype.card_pos
  exact Function.mk_mem_periodicPts (by omega) (sheet_isPeriodic e g)

/-- The minimal period of the sheet recurrence is positive. -/
theorem sheet_minPer_pos [Fintype G] (e g : G) :
    0 < Function.minimalPeriod (sheetStep e) g :=
  Function.minimalPeriod_pos_of_mem_periodicPts (sheet_periodic e g)

/-- The minimal period of the sheet recurrence is at most `2 * |G|`. -/
theorem sheet_minPer_le [Fintype G] (e g : G) :
    Function.minimalPeriod (sheetStep e) g ≤ 2 * Fintype.card G := by
  have hpos : 0 < Fintype.card G := Fintype.card_pos
  exact Function.IsPeriodicPt.minimalPeriod_le (by omega) (sheet_isPeriodic e g)

/-- The fuelled loop body unfolds to the tail of the recurrence orbit,
for any sufficient amount of fuel. -/
theorem sheetAux_spec [Fintype G] (e g : G) :
    ∀ d j fuel : ℕ, 1 ≤ j → j ≤ Function.minimalPeriod (sheetStep e) g →
      Function.minimalPeriod (sheetStep e) g - j = d →
      Function.minimalPeriod (sheetStep e) g - j < fuel →
      sheetAux e g fuel ((sheetStep e)^[j] g)
        = ((List.range' j d).map fun i => (sheetStep e)^[i] g) ++ [g] := by
  intro d
  induction d with
  | zero =>
    intro j fuel h1 h2 h3 h4
    have hj : j = Function.minimalPeriod (sheetStep e) g := by omega
    obtain ⟨f, rfl⟩ : ∃ f, fuel = f + 1 := ⟨fuel - 1, by omega⟩
    rw [hj, Function.iterate_minimalPeriod]
    simp [sheetAux]
  | succ d ih =>
    intro j fuel h1 h2 h3 h4
    have hjlt : j < Function.minimalPeriod (sheetStep e) g := by omega
    have hne : (sheetStep e)^[j] g ≠ g := by
      intro hEq
      have hper : Function.IsPeriodicPt (sheetStep e) j g := hEq
      have := Function.IsPeriodicPt.minimalPeriod_le (by omega) hper
      omega
    obtain ⟨f, rfl⟩ : ∃ f, fuel = f + 1 := ⟨fuel - 1, by omega⟩
    rw [sheetAux, if_neg hne]
    rw [show sheetStep e ((sheetStep e)^[j] g) = (sheetStep e)^[j + 1] g from
      (Function.iterate_succ_apply' (sheetStep e) j g).symm]
    rw [ih (j + 1) f (by omega) (by omega) (by omega) (by omega), List.range'_succ]
    simp

/-- The closed sheet candidate is exactly the orbit of its start under
the recurrence, followed by the closing repeat of the start. -/
theorem sheet_candidate_eq [Fintype G] (e g : G) :
    sheet_candidate e g
      = ((List.range (Function.minimalPeriod (sheetStep e) g)).map
          fun i => (sheetStep e)^[i] g) ++ [g] := by
  have h1 := sheet_minPer_pos e g
  have h2 := sheet_minPer_le e g
  unfold sheet_candidate
  rw [show sheetStep e g = (sheetStep e)^[1] g from by simp,
    sheetAux_spec e g (Function.minimalPeriod (sheetStep e) g - 1) 1
      (2 * Fintype.card G) le_rfl h1 rfl (by omega)]
  obtain ⟨k, hk⟩ : ∃ k, Function.minimalPeriod (sheetStep e) g = k + 1 :=
    ⟨Function.minimalPeriod (sheetStep e) g - 1, by omega⟩
  rw [hk, List.range_eq_range', List.range'_succ]
  simp [show k + 1 - 1 = k from by omega]

/-- The length of a sheet candidate is the minimal period plus one. -/
theorem sheet_candidate_length [Fintype G] (e g : G) :
    (sheet_candidate e g).length = Function.minimalPeriod (sheetStep e) g + 1 := by
  rw [sheet_candidate_eq]
  simp

/-- Dropping the closing repeat leaves exactly the recurrence orbit. -/
theorem dropLast_sheet [Fintype G] (e g : G) :
    (sheet_candidate e g).dropLast
      = (List.range (Function.minimalPeriod (sheetStep e) g)).map
          fun i => (sheetStep e)^[i] g := by
  rw [sheet_candidate_eq]
  exact List.dropLast_concat

/-- The recurrence orbit has no repeated entries. -/
theorem sheet_orbit_nodup [Fintype G] (e g : G) :
    (((List.range (Function.minimalPeriod (sheetStep e) g)).map
      fun i => (sheetStep e)^[i] g)).Nodup := by
  refine List.Nodup.map_on ?_ (List.nodup_range _)
  intro i hi j hj hEq
  exact Function.iterate_injOn_Iio_minimalPeriod
    (Set.mem_Iio.mpr (List.mem_range.mp hi)) (Set.mem_Iio.mpr (List.mem_range.mp hj)) hEq

/-- Every sheet retained by the sheet builder is a closed candidate for
some noncommuting starting element. -/
theorem mem_sheetsFor [Fintype G] (oppCen : List G) (e : G) (s : List G)
    (h : s ∈ sheetsFor oppCen e) :
    ∃ g : G, e * g ≠ g * e ∧ s = sheet_candidate e g := by
  suffices H : ∀ (gs : List G) (acc : List (List G)),
      (∀ t ∈ acc, ∃ g : G, e * g ≠ g * e ∧ t = sheet_candidate e g) →
      ∀ t ∈ gs.foldl (sheetAccept e) acc, ∃ g : G, e * g ≠ g * e ∧ t = sheet_candidate e g by
    exact H oppCen [] (by simp) s h
  intro gs
  induction gs with
  | nil => exact fun acc hacc t ht => hacc t ht
  | cons g gs ih =>
    intro acc hacc
    rw [List.foldl_cons]
    apply ih
    intro t ht
    unfold sheetAccept at ht
    split at ht
    · split at ht
      · exact hacc t ht
      · rename_i hguard _
        rcases List.mem_append.mp ht with h' | h'
        · exact hacc t h'
        · rw [List.mem_singleton] at h'
          exact ⟨g, hguard, h'⟩
    · exact hacc t ht

/-- With a noncommuting anchor the recurrence cannot close after one or
two steps, so the minimal period is at least three. -/
theorem minPer_ge_three [Fintype G] (e g : G) (h : e * g ≠ g * e) :
    3 ≤ Function.minimalPeriod (sheetStep e) g := by
  have h1 := sheet_minPer_pos e g
  have hIter : (sheetStep e)^[Function.minimalPeriod (sheetStep e) g] g = g :=
    Function.iterate_minimalPeriod
  by_contra hlt
  push_neg at hlt
  have hcases : Function.minimalPeriod (sheetStep e) g = 1
      ∨ Function.minimalPeriod (sheetStep e) g = 2 := by omega
  rcases hcases with h1' | h2'
  · rw [h1'] at hIter
    simp only [Function.iterate_one] at hIter
    unfold sheetStep at hIter
    apply h
    have he : e = g * g := by
      have := congrArg (fun z => g * z) hIter
      simpa [mul_assoc] using this
    rw [he]
    group
  · rw [h2', sheetStep_sq] at hIter
    apply h
    have h3 : g * e = e * g := by
      have := congrArg (fun z => e * z) hIter
      simpa [mul_assoc] using this
    exact h3.symm

/-- C2: every sheet produced by `Sheetbuilder` is a cyclic boundary
sequence: its first and last entries are equal, its entries before the
closing repeat are pairwise distinct, and its length counting the
closing repeat is at least 4 (at least 3 polygon sides), so a
degenerate 2-entry polygon is never produced. -/
theorem sheet_invariants [Fintype G] (oppCen cls : List G) (e : G) (ls : List (List G))
    (hmem : (e, ls) ∈ Sheetbuilder oppCen cls) (s : List G) (hs : s ∈ ls) :
    s.head? = s.getLast? ∧ s.dropLast.Nodup ∧ 4 ≤ s.length := by
  unfold Sheetbuilder at hmem
  obtain ⟨e', _, hpair⟩ := List.mem_map.mp hmem
  rw [Prod.mk.injEq] at hpair
  obtain ⟨rfl, rfl⟩ := hpair
  obtain ⟨g, hg, rfl⟩ := mem_sheetsFor _ _ _ hs
  have hmp3 := minPer_ge_three e' g hg
  refine ⟨?_, ?_, ?_⟩
  · have hhead : (sheet_candidate e' g).head? = some g := rfl
    rw [hhead, sheet_candidate_eq, List.getLast?_concat]
  · rw [dropLast_sheet]
    exact sheet_orbit_nodup e' g
  · rw [sheet_candidate_length]
    omega

/-- C2 witness: the pentagon-boundary sheet anchored at the reflection
`sr 0` of the dihedral group of order 6, produced from start `r 1`. -/
theorem sheet_invariants_witness :
    (sheet_candidate d3anchor (DihedralGroup.r 1)).head?
        = (sheet_candidate d3anchor (DihedralGroup.r 1)).getLast?
    ∧ (sheet_candidate d3anchor (DihedralGroup.r 1)).dropLast.Nodup
    ∧ 4 ≤ (sheet_candidate d3anchor (DihedralGroup.r 1)).length :=
  sheet_invariants d3opp [d3anchor] d3anchor (sheetsFor d3opp d3anchor) (by decide)
    (sheet_candidate d3anchor (DihedralGroup.r 1)) (by decide)

/-- C3: the sheet-closing loop terminates: over a finite group the
recurrence revisits its start `s[0]` after a positive number of steps
bounded by `2 * |G|`, the built candidate opens and closes at `s[0]`,
and the fuelled loop is independent of the fuel beyond `2 * |G|`, so
`Sheetbuilder` is a total function. -/
theorem sheet_loop_terminates [Fintype G] (e g : G) (h : e * g ≠ g * e) :
    (∃ k, 0 < k ∧ k ≤ 2 * Fintype.card G ∧ (sheetStep e)^[k] g = g)
    ∧ (sheet_candidate e g).head? = some g
    ∧ (sheet_candidate e g).getLast? = some g
    ∧ ∀ fuel, 2 * Fintype.card G ≤ fuel →
        g :: sheetAux e g fuel (sheetStep e g) = sheet_candidate e g := by
  have h1 := sheet_minPer_pos e g
  have h2 := sheet_minPer_le e g
  refine ⟨⟨Function.minimalPeriod (sheetStep e) g, h1, h2, Function.iterate_minimalPeriod⟩,
    rfl, ?_, ?_⟩
  · rw [sheet_candidate_eq]
    exact List.getLast?_concat _
  · intro fuel hfuel
    unfold sheet_candidate
    rw [show sheetStep e g = (sheetStep e)^[1] g from by simp,
      sheetAux_spec e g (Function.minimalPeriod (sheetStep e) g - 1) 1 fuel le_rfl h1 rfl
        (by omega),
      sheetAux_spec e g (Function.minimalPeriod (sheetStep e) g - 1) 1
        (2 * Fintype.card G) le_rfl h1 rfl (by omega)]

/-- C3 witness: the loop for anchor `sr 0` and start `r 1` in the
dihedral group of order 6. -/
theorem sheet_loop_terminates_witness :
    (∃ k, 0 < k ∧ k ≤ 2 * Fintype.card (DihedralGroup 3) ∧
      (sheetStep d3anchor)^[k] (DihedralGroup.r 1) = DihedralGroup.r 1)
    ∧ (sheet_candidate d3anchor (DihedralGroup.r 1)).head? = some (DihedralGroup.r 1)
    ∧ (sheet_candidate d3anchor (DihedralGroup.r 1)).getLast? = some (DihedralGroup.r 1)
    ∧ ∀ fuel, 2 * Fintype.card (DihedralGroup 3) ≤ fuel →
        DihedralGroup.r 1 :: sheetAux d3anchor (DihedralGroup.r 1) fuel
            (sheetStep d3anchor (DihedralGroup.r 1))
          = sheet_candidate d3anchor (DihedralGroup.r 1) :=
  sheet_loop_terminates d3anchor (DihedralGroup.r 1) (by decide)

/-- A cyclic pair of the sheet multiplies to the anchor. -/
theorem sheetStep_mul (e x : G) : x * sheetStep e x = e := by
  unfold sheetStep
  group

/-- The position of an orbit entry inside the orbit list. -/
theorem orbit_indexOf [Fintype G] (e g : G) (i : ℕ)
    (hi : i < Function.minimalPeriod (sheetStep e) g) :
    ((List.range (Function.minimalPeriod (sheetStep e) g)).map
      fun k => (sheetStep e)^[k] g).indexOf ((sheetStep e)^[i] g) = i := by
  have hnodup := sheet_orbit_nodup e g
  set A := (List.range (Function.minimalPeriod (sheetStep e) g)).map
    fun k => (sheetStep e)^[k] g with hA
  have hlen : A.length = Function.minimalPeriod (sheetStep e) g := by
    rw [hA]
    simp
  have hmem : (sheetStep e)^[i] g ∈ A := by
    rw [hA]
    exact List.mem_map.mpr ⟨i, List.mem_range.mpr hi, rfl⟩
  have hlt : A.indexOf ((sheetStep e)^[i] g) < A.length := List.indexOf_lt_length.mpr hmem
  have h1 : A.get ⟨A.indexOf ((sheetStep e)^[i] g), hlt⟩ = (sheetStep e)^[i] g :=
    List.indexOf_get hlt
  have h2 : A.get ⟨i, by omega⟩ = (sheetStep e)^[i] g := by
    simp [hA]
  have h3 := (List.Nodup.get_inj_iff hnodup).mp (h1.trans h2.symm)
  exact congrArg Fin.val h3

/-- Inside a sheet candidate, the source expression
`sheet[sheet.index(x) + 1]` is exactly the next recurrence value. -/
theorem nextAfter_sheet [Fintype G] (e g x : G)
    (hx : x ∈ (sheet_candidate e g).dropLast) :
    nextAfter (sheet_candidate e g) x = sheetStep e x := by
  rw [dropLast_sheet] at hx
  obtain ⟨i, hi, rfl⟩ := List.mem_map.mp hx
  rw [List.mem_range] at hi
  have hmem2 : (sheetStep e)^[i] g ∈ (List.range (Function.minimalPeriod (sheetStep e) g)).map
      fun k => (sheetStep e)^[k] g :=
    List.mem_map.mpr ⟨i, List.mem_range.mpr hi, rfl⟩
  have hidx : (sheet_candidate e g).indexOf ((sheetStep e)^[i] g) = i := by
    rw [sheet_candidate_eq, List.indexOf_append_of_mem hmem2]
    exact orbit_indexOf e g i hi
  unfold nextAfter
  rw [hidx, List.getD_eq_getElem?_getD, sheet_candidate_eq]
  rcases Nat.lt_or_ge (i + 1) (Function.minimalPeriod (sheetStep e) g) with hlt | hge
  · rw [List.getElem?_append_left (by simp; omega)]
    rw [List.getElem?_map, List.getElem?_range hlt]
    show (sheetStep e)^[i + 1] g = sheetStep e ((sheetStep e)^[i] g)
    exact Function.iterate_succ_apply' (sheetStep e) i g
  · have hieq : i + 1 = Function.minimalPeriod (sheetStep e) g := by omega
    rw [List.getElem?_append_right (by simp; omega)]
    have hsub : i + 1 - ((List.range (Function.minimalPeriod (sheetStep e) g)).map
        fun k => (sheetStep e)^[k] g).length = 0 := by
      simp
      omega
    rw [hsub]
    show g = sheetStep e ((sheetStep e)^[i] g)
    rw [← Function.iterate_succ_apply' (sheetStep e) i g,
      show i.succ = Function.minimalPeriod (sheetStep e) g from by omega,
      Function.iterate_minimalPeriod]

/-- The entries of a sheet all have the same minimal period as the
start. -/
theorem mem_sheet_per [Fintype G] (e g x : G)
    (hx : x ∈ (sheet_candidate e g).dropLast) :
    Function.minimalPeriod (sheetStep e) x = Function.minimalPeriod (sheetStep e) g := by
  rw [dropLast_sheet] at hx
  obtain ⟨i, _, rfl⟩ := List.mem_map.mp hx
  exact Function.minimalPeriod_apply_iterate (sheet_periodic e g) i

/-- Minimal periods transfer along an injective semiconjugacy. -/
theorem minimalPeriod_semiconj {α β : Type*} {ψ : α → β} {f : α → α} {gg : β → β}
    (hsemi : Function.Semiconj ψ f gg) (hinj : Function.Injective ψ) (x : α)
    (hx : x ∈ Function.periodicPts f) :
    Function.minimalPeriod gg (ψ x) = Function.minimalPeriod f x := by
  have hiter : ∀ n : ℕ, ψ (f^[n] x) = gg^[n] (ψ x) := fun n => (hsemi.iterate_right n) x
  have hiff : ∀ n, Function.IsPeriodicPt f n x ↔ Function.IsPeriodicPt gg n (ψ x) := by
    intro n
    constructor
    · intro hh
      show gg^[n] (ψ x) = ψ x
      rw [← hiter n, hh]
    · intro hh
      show f^[n] x = x
      apply hinj
      rw [hiter n]
      exact hh
  have hxpos := Function.minimalPeriod_pos_of_mem_periodicPts hx
  have hψ : ψ x ∈ Function.periodicPts gg := by
    obtain ⟨n, hn, hper⟩ := Function.mem_periodicPts.mp hx
    exact Function.mk_mem_periodicPts hn ((hiff n).mp hper)
  have hψpos := Function.minimalPeriod_pos_of_mem_periodicPts hψ
  apply le_antisymm
  · exact Function.IsPeriodicPt.minimalPeriod_le hxpos
      ((hiff _).mp (Function.isPeriodicPt_minimalPeriod f x))
  · exact Function.IsPeriodicPt.minimalPeriod_le hψpos
      ((hiff _).mpr (Function.isPeriodicPt_minimalPeriod gg (ψ x)))

/-- Period transfer along a shared edge read in opposite directions:
the sheet through consecutive pair `(a, b)` (anchor `a*b`) and the sheet
through `(b, a)` (anchor `b*a`) have equal periods. -/
theorem per_next [Fintype G] (a b : G) :
    Function.minimalPeriod (sheetStep (a * b)) a
      = Function.minimalPeriod (sheetStep (b * a)) b := by
  have h2 : sheetStep (b * a) b = a := by
    unfold sheetStep
    group
  have h1 : Function.minimalPeriod (sheetStep (b * a)) b
      = Function.minimalPeriod (sheetStep (b * a)) a := by
    have h0 := Function.minimalPeriod_apply (sheet_periodic (b * a) b)
    rw [h2] at h0
    exact h0.symm
  have hsemi : Function.Semiconj (fun x : G => a⁻¹ * x * a)
      (sheetStep (a * b)) (sheetStep (b * a)) := by
    intro x
    show a⁻¹ * sheetStep (a * b) x * a = sheetStep (b * a) (a⁻¹ * x * a)
    unfold sheetStep
    group
  have hinj : Function.Injective (fun x : G => a⁻¹ * x * a) := by
    intro x y hxy
    have h4 : a⁻¹ * x = a⁻¹ * y := mul_right_cancel hxy
    exact mul_left_cancel h4
  have h3 := minimalPeriod_semiconj hsemi hinj a (sheet_periodic (a * b) a)
  rw [show a⁻¹ * a * a = a from by group] at h3
  rw [h1, ← h3]

/-- Unfolding a successful `SheetAdjacency` test into its witnessing
pair of positions. -/
theorem sheetAdjacency_exists (s0 s1 : List G) (h : SheetAdjacency s0 s1 = true) :
    ∃ x ∈ s0.dropLast, ∃ y ∈ s1.dropLast,
      (x = nextAfter s1 y ∧ nextAfter s0 x = y)
      ∨ (x = y ∧ nextAfter s0 x = nextAfter s1 y) := by
  unfold SheetAdjacency at h
  rw [List.any_eq_true] at h
  obtain ⟨x, hx, h⟩ := h
  rw [List.any_eq_true] at h
  obtain ⟨y, hy, h⟩ := h
  rw [Bool.or_eq_true, decide_eq_true_eq, decide_eq_true_eq] at h
  refine ⟨x, hx, y, hy, ?_⟩
  rcases h with h | h
  · left
    injection h with h1 h2
    injection h2 with h2 _
    exact ⟨h1, h2⟩
  · right
    injection h with h1 h2
    injection h2 with h2 _
    exact ⟨h1, h2⟩

/-- Two adjacent sheet candidates have boundaries of the same length. -/
theorem adjacent_genuine_lengths [Fintype G] (e g e' g' : G)
    (h : SheetAdjacency (sheet_candidate e g) (sheet_candidate e' g') = true) :
    (sheet_candidate e g).length = (sheet_candidate e' g').length := by
  obtain ⟨x, hx, y, hy, hcase⟩ := sheetAdjacency_exists _ _ h
  have hpx := mem_sheet_per e g x hx
  have hpy := mem_sheet_per e' g' y hy
  have hnx := nextAfter_sheet e g x hx
  have hny := nextAfter_sheet e' g' y hy
  rw [sheet_candidate_length, sheet_candidate_length, ← hpx, ← hpy]
  rcases hcase with ⟨h1, h2⟩ | ⟨h1, h2⟩
  · rw [hny] at h1
    rw [hnx] at h2
    have he : e = x * y := by
      rw [← h2]
      exact (sheetStep_mul e x).symm
    unfold sheetStep at h1
    have he' : e' = y * x := by
      rw [h1]
      group
    rw [he, he', per_next x y]
  · rw [hnx, hny] at h2
    have he : e = e' :=
      calc e = x * sheetStep e x := (sheetStep_mul e x).symm
        _ = y * sheetStep e' y := by rw [h2, h1]
        _ = e' := sheetStep_mul e' y
    rw [h1, he]

/-- C6: polygon uniformity within a component: any two genuine sheets
joined by a chain of recorded adjacencies have equal boundary lengths,
so the `polygon` field (boundary length minus one) of a component does
not depend on which member sheet is chosen. -/
theorem component_polygon_uniform [Fintype G] (s t : List G)
    (h : Relation.ReflTransGen sheetRel s t) :
    s.length = t.length ∧ s.length - 1 = t.length - 1 := by
  have hL : s.length = t.length := by
    induction h with
    | refl => rfl
    | tail _ hrel ih =>
      obtain ⟨⟨e, g, _, rfl⟩, ⟨e', g', _, rfl⟩, hadj⟩ := hrel
      exact ih.trans (adjacent_genuine_lengths e g e' g' hadj)
  exact ⟨hL, by rw [hL]⟩

/-- C6 witness: the two pentagon sheets anchored at `sr 0` in the
dihedral group of order 6, produced from `r 1` and from `r 2`, are
adjacent and have equal lengths. -/
theorem component_polygon_uniform_witness :
    (sheet_candidate d3anchor (DihedralGroup.r 1)).length
        = (sheet_candidate d3anchor (DihedralGroup.r 2)).length
    ∧ (sheet_candidate d3anchor (DihedralGroup.r 1)).length - 1
        = (sheet_candidate d3anchor (DihedralGroup.r 2)).length - 1 :=
  component_polygon_uniform (sheet_candidate d3anchor (DihedralGroup.r 1))
    (sheet_candidate d3anchor (DihedralGroup.r 2))
    (Relation.ReflTransGen.single
      ⟨⟨d3anchor, DihedralGroup.r 1, by decide, rfl⟩,
       ⟨d3anchor, DihedralGroup.r 2, by decide, rfl⟩, by decide⟩)

/-- Flattening singleton classes returns the representative list. -/
theorem flatten_map_singleton (l : List G) : (l.map fun r => ([r] : List G)).flatten = l := by
  induction l with
  | nil => simp
  | cons r rs ih => simp [ih]

/-- Appending one element to the class of one representative raises the
total flattened count by that element's count. -/
theorem flatten_count_append (c x : G) :
    ∀ (reps : List G), reps.Nodup → ∀ (dic : G → List G) (r0 : G), r0 ∈ reps →
      ((reps.map (Function.update dic r0 (dic r0 ++ [c]))).flatten).count x
        = ((reps.map dic).flatten).count x + List.count x [c] := by
  intro reps
  induction reps with
  | nil => intro _ dic r0 hr0; simp at hr0
  | cons r rs ih =>
    intro hnd dic r0 hr0
    rw [List.nodup_cons] at hnd
    by_cases hrr : r0 = r
    · subst hrr
      have hmap : rs.map (Function.update dic r0 (dic r0 ++ [c])) = rs.map dic := by
        apply List.map_congr_left
        intro z hz
        apply Function.update_noteq
        intro hEq
        exact hnd.1 (hEq ▸ hz)
      simp only [List.map_cons, List.flatten_cons, List.count_append, Function.update_same, hmap]
      omega
    · have hr0' : r0 ∈ rs := by
        rcases List.mem_cons.mp hr0 with hEq | hIn
        · exact absurd hEq hrr
        · exact hIn
      simp only [List.map_cons, List.flatten_cons, List.count_append,
        Function.update_noteq (Ne.symm hrr)]
      rw [ih hnd.2 dic r0 hr0']
      omega

/-- The global invariant of the candidate-assignment loop of
`ConClasses`: each class keeps its representative as head, every class
member is conjugate to the representative, and the flattened count grows
exactly by the processed candidates. -/
theorem conClasses_aux (reps oppCen : List G) (hndR : reps.Nodup) :
    ∀ (cands : List G), (∀ c ∈ cands, ∃ g ∈ oppCen, g⁻¹ * c * g ∈ reps) →
    ∀ (dic : G → List G),
      (∀ r ∈ reps, ∃ t, dic r = r :: t) →
      (∀ r ∈ reps, ∀ x ∈ dic r, ∃ g : G, g⁻¹ * x * g = r) →
      (∀ r ∈ reps, ∃ t, (cands.foldl (conStep reps oppCen) dic) r = r :: t)
      ∧ (∀ r ∈ reps, ∀ x ∈ (cands.foldl (conStep reps oppCen) dic) r, ∃ g : G, g⁻¹ * x * g = r)
      ∧ ∀ x : G, ((reps.map (cands.foldl (conStep reps oppCen) dic)).flatten).count x
          = ((reps.map dic).flatten).count x + cands.count x := by
  intro cands
  induction cands with
  | nil =>
    intro _ dic hhead hconj
    exact ⟨hhead, hconj, fun x => by simp⟩
  | cons c cs ih =>
    intro hfind dic hhead hconj
    obtain ⟨g0, hg0mem, hg0⟩ := hfind c (by simp)
    have hfs : ∃ gg, (oppCen.find? fun g => decide (g⁻¹ * c * g ∈ reps)) = some gg := by
      rw [← Option.isSome_iff_exists, List.find?_isSome]
      exact ⟨g0, hg0mem, decide_eq_true hg0⟩
    obtain ⟨gg, hgg⟩ := hfs
    have hggP : gg⁻¹ * c * gg ∈ reps := by
      have := List.find?_some hgg
      simpa using this
    have hstep : conStep reps oppCen dic c
        = Function.update dic (gg⁻¹ * c * gg) (dic (gg⁻¹ * c * gg) ++ [c]) := by
      unfold conStep
      rw [hgg]
    have hhead' : ∀ r ∈ reps, ∃ t, (conStep reps oppCen dic c) r = r :: t := by
      intro r hr
      rw [hstep]
      by_cases hrr : r = gg⁻¹ * c * gg
      · obtain ⟨t, ht⟩ := hhead r hr
        subst hrr
        exact ⟨t ++ [c], by rw [Function.update_same, ht, List.cons_append]⟩
      · rw [Function.update_noteq hrr]
        exact hhead r hr
    have hconj' : ∀ r ∈ reps, ∀ x ∈ (conStep reps oppCen dic c) r, ∃ g : G, g⁻¹ * x * g = r := by
      intro r hr x hx
      rw [hstep] at hx
      by_cases hrr : r = gg⁻¹ * c * gg
      · subst hrr
        rw [Function.update_same] at hx
        rcases List.mem_append.mp hx with hOld | hNew
        · exact hconj _ hr x hOld
        · rw [List.mem_singleton] at hNew
          subst hNew
          exact ⟨gg, rfl⟩
      · rw [Function.update_noteq hrr] at hx
        exact hconj r hr x hx
    have hcount' : ∀ x : G, ((reps.map (conStep reps oppCen dic c)).flatten).count x
        = ((reps.map dic).flatten).count x + List.count x [c] := by
      intro x
      rw [hstep]
      exact flatten_count_append c x reps hndR dic _ hggP
    rw [List.foldl_cons]
    obtain ⟨H1, H2, H3⟩ := ih (fun c' hc' => hfind c' (by simp [hc'])) _ hhead' hconj'
    refine ⟨H1, H2, fun x => ?_⟩
    rw [H3 x, hcount' x]
    by_cases hcx : c = x <;> simp [List.count_cons, hcx]
    omega

/-- C1: for a faithful input — distinct noncentral elements, distinct
representatives, the noncentral list characterised by noncentrality, and
every noncentral non-representative conjugate to some representative —
`ConClasses` is a partition: every noncentral element lands in exactly
one class (counted across the flattened classes), each representative is
the first entry of its own class, and every member of a class is
conjugate to that class's representative via some group element. -/
theorem conClasses_partition (reps oppCen : List G)
    (hndR : reps.Nodup) (hndO : oppCen.Nodup)
    (hcen : ∀ g : G, g ∈ oppCen ↔ ¬ ∀ h : G, g * h = h * g)
    (hconj : ∀ c ∈ oppCen, c ∉ reps → ∃ r ∈ reps, ∃ g : G, g⁻¹ * c * g = r) :
    (∀ x ∈ oppCen, ((reps.map (ConClasses reps oppCen)).flatten).count x = 1)
    ∧ (∀ r ∈ reps, ∃ t, ConClasses reps oppCen r = r :: t)
    ∧ (∀ r ∈ reps, ∀ x ∈ ConClasses reps oppCen r, ∃ g : G, g⁻¹ * x * g = r) := by
  have hcandMem : ∀ c : G, c ∈ oppCen.filter (fun c => decide (c ∉ reps))
      ↔ c ∈ oppCen ∧ c ∉ reps := by
    intro c
    rw [List.mem_filter]
    simp
  have hfind : ∀ c ∈ oppCen.filter (fun c => decide (c ∉ reps)),
      ∃ g ∈ oppCen, g⁻¹ * c * g ∈ reps := by
    intro c hc
    obtain ⟨hcO, hcR⟩ := (hcandMem c).mp hc
    obtain ⟨r, hrR, gg, hgg⟩ := hconj c hcO hcR
    refine ⟨gg, ?_, by rw [hgg]; exact hrR⟩
    rw [hcen]
    intro hcomm
    have hfix : gg⁻¹ * c * gg = c := by
      rw [mul_assoc, ← hcomm c, ← mul_assoc]
      group
    rw [hfix] at hgg
    exact hcR (hgg ▸ hrR)
  have hhead0 : ∀ r ∈ reps, ∃ t, (fun x => if x ∈ reps then [x] else ([] : List G)) r = r :: t :=
    fun r hr => ⟨[], by simp [hr]⟩
  have hconj0 : ∀ r ∈ reps, ∀ x ∈ (fun x => if x ∈ reps then [x] else ([] : List G)) r,
      ∃ g : G, g⁻¹ * x * g = r := by
    intro r hr x hx
    simp only [hr, if_pos, List.mem_singleton] at hx
    subst hx
    exact ⟨1, by group⟩
  obtain ⟨H1, H2, H3⟩ := conClasses_aux reps oppCen hndR
    (oppCen.filter fun c => decide (c ∉ reps)) hfind _ hhead0 hconj0
  refine ⟨?_, H1, H2⟩
  intro x hxO
  have hCC : ((reps.map (ConClasses reps oppCen)).flatten).count x
      = ((reps.map fun r => if r ∈ reps then [r] else ([] : List G)).flatten).count x
        + (oppCen.filter fun c => decide (c ∉ reps)).count x := H3 x
  have hInit : ((reps.map fun r => if r ∈ reps then [r] else ([] : List G)).flatten).count x
      = if x ∈ reps then 1 else 0 := by
    have hmap : (reps.map fun r => if r ∈ reps then [r] else ([] : List G))
        = reps.map fun r => [r] :=
      List.map_congr_left fun z hz => by simp [hz]
    rw [hmap, flatten_map_singleton]
    by_cases hx : x ∈ reps
    · rw [if_pos hx]
      exact List.count_eq_one_of_mem hndR hx
    · rw [if_neg hx]
      exact List.count_eq_zero_of_not_mem hx
  rw [hCC, hInit]
  by_cases hx : x ∈ reps
  · rw [if_pos hx]
    have hnot : x ∉ oppCen.filter fun c => decide (c ∉ reps) :=
      fun hc => ((hcandMem x).mp hc).2 hx
    rw [List.count_eq_zero_of_not_mem hnot]
  · rw [if_neg hx]
    have hmem : x ∈ oppCen.filter fun c => decide (c ∉ reps) := (hcandMem x).mpr ⟨hxO, hx⟩
    have hndC : (oppCen.filter fun c => decide (c ∉ reps)).Nodup := hndO.filter _
    rw [List.count_eq_one_of_mem hndC hmem]

/-- C1 witness: in the dihedral group of order 6 with the faithful
noncentral list and representative list, the reflection `sr 1` is
counted exactly once across the flattened classes. -/
theorem conClasses_partition_witness :
    ((d3reps.map (ConClasses d3reps d3opp)).flatten).count (DihedralGroup.sr 1) = 1 :=
  (conClasses_partition d3reps d3opp (by decide) (by decide) (by decide) (by decide)).1
    (DihedralGroup.sr 1) (by decide)

/-- A witnessing pair of positions makes the `SheetAdjacency` test
succeed. -/
theorem sheetAdjacency_of_pair (s0 s1 : List G) (x y : G) (hx : x ∈ s0.dropLast)
    (hy : y ∈ s1.dropLast)
    (h : ([x, nextAfter s0 x] = [nextAfter s1 y, y])
      ∨ ([x, nextAfter s0 x] = [y, nextAfter s1 y])) :
    SheetAdjacency s0 s1 = true := by
  unfold SheetAdjacency
  rw [List.any_eq_true]
  refine ⟨x, hx, ?_⟩
  rw [List.any_eq_true]
  refine ⟨y, hy, ?_⟩
  rcases h with h | h <;> simp [h]

/-- The `SheetAdjacency` test is symmetric in its two sheets. -/
theorem sheetAdjacency_symm_true (s0 s1 : List G) (h : SheetAdjacency s0 s1 = true) :
    SheetAdjacency s1 s0 = true := by
  obtain ⟨x, hx, y, hy, hc⟩ := sheetAdjacency_exists s0 s1 h
  apply sheetAdjacency_of_pair s1 s0 y x hy hx
  rcases hc with ⟨h1, h2⟩ | ⟨h1, h2⟩
  · left
    rw [← h1, ← h2]
  · right
    subst h1
    rw [h2]

/-- Any matrix property preserved by those `setSym` calls whose two
sheets pass the adjacency test — the only calls the program makes — is
preserved by the inner `for j` scan. -/
theorem foldl_adjStep_presAdj (sheets : List (List G)) (P : (ℕ → ℕ → Bool) → Prop)
    (hP : ∀ m a b, SheetAdjacency (sheets.getD a []) (sheets.getD b []) = true →
      P m → P (setSym m a b)) (i : ℕ) :
    ∀ (js : List ℕ) (st : (ℕ → ℕ → Bool) × ℕ), P st.1 →
      P ((js.foldl (adjStep sheets i) st).1) := by
  intro js
  induction js with
  | nil => exact fun st h => h
  | cons j js ih =>
    intro st h
    rw [List.foldl_cons]
    apply ih
    unfold adjStep
    split
    · rename_i hadj
      exact hP _ _ _ hadj h
    · exact h

/-- Guarded preservation through the fuelled `while` loop. -/
theorem adjWhile_presAdj (sheets : List (List G)) (P : (ℕ → ℕ → Bool) → Prop)
    (hP : ∀ m a b, SheetAdjacency (sheets.getD a []) (sheets.getD b []) = true →
      P m → P (setSym m a b)) (target i : ℕ) :
    ∀ (fuel : ℕ) (st : (ℕ → ℕ → Bool) × ℕ), P st.1 →
      P ((adjWhile sheets target i fuel st).1) := by
  intro fuel
  induction fuel with
  | zero => exact fun st h => h
  | succ fuel ih =>
    intro st h
    rw [adjWhile]
    split
    · apply ih
      unfold adjPass
      exact foldl_adjStep_presAdj sheets P hP i _ st h
    · exact h

/-- Guarded preservation through one outer iteration. -/
theorem adjOuter_presAdj (sheets : List (List G)) (P : (ℕ → ℕ → Bool) → Prop)
    (hP : ∀ m a b, SheetAdjacency (sheets.getD a []) (sheets.getD b []) = true →
      P m → P (setSym m a b)) (fuel : ℕ) (mat : ℕ → ℕ → Bool) (i : ℕ) (h : P mat) :
    P (adjOuter sheets fuel mat i) := by
  unfold adjOuter
  exact adjWhile_presAdj sheets P hP _ i fuel _ h

/-- Reading a catalog sheet through the mapped list. -/
theorem cat_getD_snd (cat : List (G × List G)) (j : ℕ) (hj : j < cat.length) :
    (cat.map Prod.snd).getD j [] = (cat.getD j (1, [])).2 := by
  rw [List.getD_eq_getElem?_getD, List.getD_eq_getElem?_getD, List.getElem?_map,
    List.getElem?_eq_getElem hj]
  simp

/-- A catalog entry read with a default is a member of the catalog. -/
theorem cat_getD_mem (cat : List (G × List G)) (j : ℕ) (hj : j < cat.length) :
    cat.getD j (1, []) ∈ cat := by
  rw [List.getD_eq_getElem?_getD, List.getElem?_eq_getElem hj]
  exact List.getElem_mem hj

/-- `countP` over `List.range` as a `Finset` filter cardinality. -/
theorem countP_range_eq_card_filter (p : ℕ → Bool) (n : ℕ) :
    (List.range n).countP p = ((Finset.range n).filter fun j => p j = true).card := by
  induction n with
  | zero => simp
  | succ n ih =>
    rw [List.range_succ, List.countP_append, Finset.range_succ, Finset.filter_insert]
    by_cases hp : p n = true
    · rw [if_pos hp, Finset.card_insert_of_not_mem (by simp)]
      simp [hp, ih]
    · rw [if_neg hp]
      simp [hp, ih]

/-- The orbit of a point reachable from `u` is contained in the orbit of
`u`. -/
theorem orbit_subset_of_reach [Fintype G] (e u v : G)
    (hreach : ∃ k, (sheetStep e)^[k] u = v) :
    ((List.range (Function.minimalPeriod (sheetStep e) v)).map
      fun i => (sheetStep e)^[i] v).toFinset
    ⊆ ((List.range (Function.minimalPeriod (sheetStep e) u)).map
      fun i => (sheetStep e)^[i] u).toFinset := by
  obtain ⟨k, rfl⟩ := hreach
  intro z hz
  rw [List.mem_toFinset] at hz ⊢
  obtain ⟨m, _, rfl⟩ := List.mem_map.mp hz
  refine List.mem_map.mpr ⟨(m + k) % Function.minimalPeriod (sheetStep e) u, ?_, ?_⟩
  · rw [List.mem_range]
    exact Nat.mod_lt _ (sheet_minPer_pos e u)
  · rw [Function.iterate_mod_minimalPeriod_eq, Function.iterate_add_apply]

/-- The sheet anchored at `e` through any entry of a given sheet has the
same unordered element set. -/
theorem sheet_through_point [Fintype G] (e g x : G)
    (hx : x ∈ (sheet_candidate e g).dropLast) :
    (sheet_candidate e x).toFinset = (sheet_candidate e g).toFinset := by
  have horb : ∀ u : G, (sheet_candidate e u).toFinset
      = ((List.range (Function.minimalPeriod (sheetStep e) u)).map
          fun i => (sheetStep e)^[i] u).toFinset := by
    intro u
    rw [sheet_candidate_eq, List.toFinset_append]
    apply Finset.union_eq_left.mpr
    intro z hz
    have hz' : z = u := by simpa using hz
    subst hz'
    rw [List.mem_toFinset]
    refine List.mem_map.mpr ⟨0, ?_, by simp⟩
    rw [List.mem_range]
    exact sheet_minPer_pos e z
  rw [dropLast_sheet] at hx
  obtain ⟨k, hk, rfl⟩ := List.mem_map.mp hx
  rw [List.mem_range] at hk
  rw [horb, horb]
  apply Finset.Subset.antisymm
  · exact orbit_subset_of_reach e g _ ⟨k, rfl⟩
  · apply orbit_subset_of_reach e ((sheetStep e)^[k] g) g
    refine ⟨Function.minimalPeriod (sheetStep e) g - k, ?_⟩
    rw [← Function.iterate_add_apply,
      show Function.minimalPeriod (sheetStep e) g - k + k
        = Function.minimalPeriod (sheetStep e) g from by omega]
    exact Function.iterate_minimalPeriod

/-- What a successful adjacency test between two genuine sheets
determines: either the anchors coincide and so do the element sets, or
the second sheet's anchor and element set are determined by an entry of
the first sheet (the shared edge read backwards). -/
theorem adjacent_sheet_data [Fintype G] (ei gi ej gj : G)
    (hadj : SheetAdjacency (sheet_candidate ei gi) (sheet_candidate ej gj) = true) :
    (ei = ej ∧ (sheet_candidate ej gj).toFinset = (sheet_candidate ei gi).toFinset)
    ∨ ∃ x ∈ (sheet_candidate ei gi).dropLast,
        ej = sheetStep ei x * x
        ∧ (sheet_candidate ej gj).toFinset
          = (sheet_candidate (sheetStep ei x * x) (sheetStep ei x)).toFinset := by
  obtain ⟨x, hx, y, hy, hcase⟩ := sheetAdjacency_exists _ _ hadj
  have hnx := nextAfter_sheet ei gi x hx
  have hny := nextAfter_sheet ej gj y hy
  rcases hcase with ⟨h1, h2⟩ | ⟨h1, h2⟩
  · right
    rw [hny] at h1
    rw [hnx] at h2
    have hej : ej = sheetStep ei x * x := by
      rw [h2]
      unfold sheetStep at h1
      rw [h1]
      group
    refine ⟨x, hx, hej, ?_⟩
    rw [(sheet_through_point ej gj y hy).symm, ← h2, ← hej]
  · left
    rw [hnx, hny] at h2
    subst h1
    unfold sheetStep at h2
    have hee : ei = ej := mul_left_cancel h2
    refine ⟨hee, ?_⟩
    rw [(sheet_through_point ej gj x hy).symm, (sheet_through_point ei gi x hx).symm, hee]

/-- The geometric core: in a deduplicated genuine catalog each sheet has
at most `boundary length - 1` other adjacent sheets, because each of its
edges is shared with at most one other retained sheet. -/
theorem neighbour_bound [Fintype G] (cat : List (G × List G))
    (hgen : ∀ p ∈ cat, ∃ g : G, p.2 = sheet_candidate p.1 g)
    (hdedup : cat.Pairwise fun p q => p.1 = q.1 → p.2.toFinset ≠ q.2.toFinset)
    (i : ℕ) (hi : i < cat.length) :
    ((Finset.range cat.length).filter fun j => j ≠ i ∧
        SheetAdjacency ((cat.map Prod.snd).getD i [])
          ((cat.map Prod.snd).getD j []) = true).card
      ≤ ((cat.map Prod.snd).getD i []).length - 1 := by
  have hded : ∀ a b : ℕ, a < cat.length → b < cat.length → a ≠ b →
      (cat.getD a (1, [])).1 = (cat.getD b (1, [])).1 →
      (cat.getD a (1, [])).2.toFinset = (cat.getD b (1, [])).2.toFinset → False := by
    intro a b ha hb hab h1 h2
    rw [List.pairwise_iff_getElem] at hdedup
    have hga : cat.getD a (1, []) = cat[a] := by
      rw [List.getD_eq_getElem?_getD, List.getElem?_eq_getElem ha]
      rfl
    have hgb : cat.getD b (1, []) = cat[b] := by
      rw [List.getD_eq_getElem?_getD, List.getElem?_eq_getElem hb]
      rfl
    rcases Nat.lt_or_ge a b with hlt | hge
    · have hR := hdedup a b ha hb hlt
      rw [← hga, ← hgb] at hR
      exact hR h1 h2
    · have hlt : b < a := by omega
      have hR := hdedup b a hb ha hlt
      rw [← hgb, ← hga] at hR
      exact hR h1.symm h2.symm
  obtain ⟨gi, hgi⟩ := hgen _ (cat_getD_mem cat i hi)
  have hsi : (cat.map Prod.snd).getD i []
      = sheet_candidate (cat.getD i (1, [])).1 gi := by
    rw [cat_getD_snd cat i hi, hgi]
  set ei := (cat.getD i (1, [])).1 with hei
  set N := (Finset.range cat.length).filter (fun j => j ≠ i ∧
      SheetAdjacency ((cat.map Prod.snd).getD i [])
        ((cat.map Prod.snd).getD j []) = true) with hN
  set D := ((sheet_candidate ei gi).dropLast).toFinset with hD
  set ψ : G → G × Finset G := fun x =>
    (sheetStep ei x * x,
     (sheet_candidate (sheetStep ei x * x) (sheetStep ei x)).toFinset) with hψ
  set φ : ℕ → G × Finset G := fun j =>
    ((cat.getD j (1, [])).1, (cat.getD j (1, [])).2.toFinset) with hφ
  have hmaps : ∀ j ∈ N, φ j ∈ D.image ψ := by
    intro j hj
    rw [hN, Finset.mem_filter, Finset.mem_range] at hj
    obtain ⟨hjlen, hjne, hadj⟩ := hj
    obtain ⟨gj, hgj⟩ := hgen _ (cat_getD_mem cat j hjlen)
    have hsj : (cat.map Prod.snd).getD j []
        = sheet_candidate (cat.getD j (1, [])).1 gj := by
      rw [cat_getD_snd cat j hjlen, hgj]
    rw [hsi, hsj] at hadj
    rcases adjacent_sheet_data _ _ _ _ hadj with ⟨hee, hset⟩ | ⟨x, hx, hej, hset⟩
    · exfalso
      apply hded i j hi hjlen (Ne.symm hjne) hee
      rw [hgi, hgj]
      exact hset.symm
    · refine Finset.mem_image.mpr ⟨x, ?_, ?_⟩
      · rw [hD]
        exact List.mem_toFinset.mpr hx
      · rw [hψ, hφ, Prod.mk.injEq]
        exact ⟨hej.symm, by rw [hgj, hset]⟩
  have hinj : Set.InjOn φ ↑N := by
    intro j1 hj1 j2 hj2 heq
    rw [Finset.mem_coe, hN, Finset.mem_filter, Finset.mem_range] at hj1 hj2
    rw [hφ, Prod.mk.injEq] at heq
    by_contra hne
    exact hded j1 j2 hj1.1 hj2.1 hne heq.1 heq.2
  have hc1 : N.card ≤ (D.image ψ).card := Finset.card_le_card_of_injOn φ hmaps hinj
  have hc2 : (D.image ψ).card ≤ D.card := Finset.card_image_le
  have hc3 : D.card = ((cat.map Prod.snd).getD i []).length - 1 := by
    rw [hD, List.toFinset_card_of_nodup (by rw [dropLast_sheet]; exact sheet_orbit_nodup _ _),
      List.length_dropLast, hsi]
  omega

/-- Folding the outer loop over any list of indices sets the diagonal at
every listed in-range index, provided the matrix so far only records
genuine adjacencies. -/
theorem diag_of_mem [Fintype G] (cat : List (G × List G)) (fuel : ℕ) (hfuel : 1 ≤ fuel)
    (hgen : ∀ p ∈ cat, ∃ g : G, p.2 = sheet_candidate p.1 g)
    (hdedup : cat.Pairwise fun p q => p.1 = q.1 → p.2.toFinset ≠ q.2.toFinset) :
    ∀ (is : List ℕ) (mat : ℕ → ℕ → Bool),
      (∀ a b : ℕ, mat a b = true →
        SheetAdjacency ((cat.map Prod.snd).getD a [])
          ((cat.map Prod.snd).getD b []) = true) →
      ∀ i ∈ is, i < cat.length →
        (is.foldl (adjOuter (cat.map Prod.snd) fuel) mat) i i = true := by
  intro is
  induction is with
  | nil =>
    intro mat hP i hmem
    simp at hmem
  | cons j js ih =>
    intro mat hP i hmem hi
    rw [List.foldl_cons]
    rcases List.mem_cons.mp hmem with rfl | hmem'
    · obtain ⟨g0, hg0⟩ := hgen _ (cat_getD_mem cat i hi)
      have hlen2 : 2 ≤ ((cat.map Prod.snd).getD i []).length := by
        rw [cat_getD_snd cat i hi, hg0, sheet_candidate_length]
        have := sheet_minPer_pos (cat.getD i (1, [])).1 g0
        omega
      apply foldl_adjOuter_keeps
      apply adjOuter_diag _ fuel mat i (by rw [List.length_map]; exact hi) hlen2 hfuel
      unfold rowSum
      have hb1 : ((List.range (cat.map Prod.snd).length).countP fun a => mat i a)
          ≤ ((List.range (cat.map Prod.snd).length).countP fun a =>
              SheetAdjacency ((cat.map Prod.snd).getD i [])
                ((cat.map Prod.snd).getD a [])) :=
        List.countP_mono_left fun a _ ha => hP i a ha
      rw [countP_range_eq_card_filter, countP_range_eq_card_filter] at hb1
      have hsub : ((Finset.range (cat.map Prod.snd).length).filter fun a =>
            SheetAdjacency ((cat.map Prod.snd).getD i [])
              ((cat.map Prod.snd).getD a []) = true)
          ⊆ insert i ((Finset.range (cat.map Prod.snd).length).filter fun a => a ≠ i ∧
              SheetAdjacency ((cat.map Prod.snd).getD i [])
                ((cat.map Prod.snd).getD a []) = true) := by
        intro a ha
        rw [Finset.mem_filter] at ha
        by_cases hai : a = i
        · subst hai
          exact Finset.mem_insert_self a _
        · exact Finset.mem_insert_of_mem (Finset.mem_filter.mpr ⟨ha.1, hai, ha.2⟩)
      have hb2 := le_trans (Finset.card_le_card hsub) (Finset.card_insert_le _ _)
      have hb3 := neighbour_bound cat hgen hdedup i hi
      rw [countP_range_eq_card_filter]
      rw [List.length_map] at hb1 hb2 ⊢
      omega
    · apply ih
      · intro a b
        apply adjOuter_presAdj (cat.map Prod.snd)
          (fun m => ∀ a b : ℕ, m a b = true →
            SheetAdjacency ((cat.map Prod.snd).getD a [])
              ((cat.map Prod.snd).getD b []) = true)
          ?hPP fuel mat j hP
        case hPP =>
          intro m a' b' hadj hm c d hcd
          have hcd' : setSym m a' b' c d = true := hcd
          unfold setSym at hcd'
          split at hcd'
          · rename_i hor
            rcases hor with ⟨rfl, rfl⟩ | ⟨rfl, rfl⟩
            · exact hadj
            · exact sheetAdjacency_symm_true _ _ hadj
          · exact hm c d hcd'
      · exact hmem'
      · exact hi

/-- C10: `SheetAdjacency` applied to any sheet boundary list with at
least two entries and itself returns `True`; consequently, on a genuine
sheet catalog — every entry a closed sheet candidate for its recorded
anchor, and distinct entries with equal anchors having distinct element
sets, as the set-based deduplication of `Sheetbuilder` and the partition
of anchors guarantee — the `ComponentBuilder` scan starting at `j = i`
sets the diagonal entry `mat[i][i] = 1` for every catalog index `i`:
each sheet shares each of its edges with at most one other catalog
sheet, so when the outer loop reaches `i` its recorded-neighbour count
is still below the target `len(sheet)+1` and the `while` body runs. -/
theorem sheet_self_adjacency_diag [Fintype G] :
    (∀ (s : List G), 2 ≤ s.length → SheetAdjacency s s = true)
    ∧ ∀ (cat : List (G × List G)) (fuel : ℕ),
        (∀ p ∈ cat, ∃ g : G, p.2 = sheet_candidate p.1 g) →
        (cat.Pairwise fun p q => p.1 = q.1 → p.2.toFinset ≠ q.2.toFinset) →
        1 ≤ fuel → ∀ i, i < cat.length →
          ComponentMatrix (cat.map Prod.snd) fuel i i = true := by
  refine ⟨sheetAdjacency_self, fun cat fuel hgen hdedup hfuel i hi => ?_⟩
  unfold ComponentMatrix
  apply diag_of_mem cat fuel hfuel hgen hdedup _ _ (fun a b h => by simp at h) i ?_ hi
  rw [List.mem_range, List.length_map]
  exact hi

/-- C10 witness: on the genuine sheet catalog of the dihedral group of
order 6 (two triangles and three pentagons), the diagonal entry of
catalog index 4 is set. -/
theorem sheet_self_adjacency_diag_witness :
    ComponentMatrix ((SheetCatalog d3reps d3opp).map Prod.snd) 1 4 4 = true :=
  sheet_self_adjacency_diag.2 (SheetCatalog d3reps d3opp) 1 (by decide) (by decide)
    (by decide) 4 (by decide)

end SimplexBuilder
